import Mathlib

/-!
Shallow embedding of the schema-builder core in `src/client/pages/Index.tsx`:
the field-tree data model, its mutation operations, and the recursive
JSON-Schema compiler (`convertField` / `generateJsonSchema`), together with
proofs of the specified properties.

JavaScript objects are modelled as association lists in insertion order
(`setKey` replaces the value at the first occurrence of an existing key and
otherwise appends, exactly like a JS property assignment on objects whose
keys were themselves added by assignment).  JS `undefined`-able fields are
modelled with `Option`.  Fresh ids (`Date.now()` plus a random suffix) are
nondeterministic at runtime, so every operation that generates an id takes
the generated id as an explicit argument.
-/

/-- The `FieldType` union from Index.tsx line 27. -/
inductive FieldType where
  | string
  | number
  | boolean
  | object
  | array
deriving DecidableEq, Repr

/-- The literal JSON-schema string each `FieldType` is transcribed to
(`type: field.type` transcribes the tag itself). -/
def FieldType.typeName : FieldType → String
  | .string => "string"
  | .number => "number"
  | .boolean => "boolean"
  | .object => "object"
  | .array => "array"

/-- The `SchemaField` interface from Index.tsx lines 29-37.  `description`,
`properties` and `items` are optional there, hence `Option` here. -/
inductive SchemaField where
  | mk (id : String) (name : String) (type : FieldType) (required : Bool)
       (description : Option String) (properties : Option (List SchemaField))
       (items : Option SchemaField)

def SchemaField.id : SchemaField → String
  | .mk i _ _ _ _ _ _ => i

def SchemaField.name : SchemaField → String
  | .mk _ n _ _ _ _ _ => n

def SchemaField.type : SchemaField → FieldType
  | .mk _ _ t _ _ _ _ => t

def SchemaField.required : SchemaField → Bool
  | .mk _ _ _ r _ _ _ => r

def SchemaField.description : SchemaField → Option String
  | .mk _ _ _ _ d _ _ => d

def SchemaField.properties : SchemaField → Option (List SchemaField)
  | .mk _ _ _ _ _ p _ => p

def SchemaField.items : SchemaField → Option SchemaField
  | .mk _ _ _ _ _ _ it => it

/-- The JSON values the compiler produces: strings, arrays and objects
(objects keep their keys in insertion order, as JS does). -/
inductive Json where
  | str (s : String)
  | arr (elems : List Json)
  | obj (fields : List (String × Json))

/-- JS property assignment `o[k] = v` on an object represented in insertion
order: an existing key keeps its position and gets the new value, a new key
is appended at the end. -/
def setKey : List (String × Json) → String → Json → List (String × Json)
  | [], k, v => [(k, v)]
  | (k', v') :: rest, k, v =>
      if k' = k then (k', v) :: rest else (k', v') :: setKey rest k v

/-- JS property lookup `o[k]` on an insertion-ordered object (keys built by
`setKey` are unique, so first match is the only match). -/
def lookupKey : List (String × Json) → String → Option Json
  | [], _ => none
  | (k', v) :: rest, k => if k' = k then some v else lookupKey rest k

/-- Lookup of a key in a JSON value (`none` on non-objects). -/
def Json.getKey : Json → String → Option Json
  | .obj kvs, k => lookupKey kvs k
  | _, _ => none

mutual

/-- `convertField` from Index.tsx lines 307-337: start from
`{ type: field.type }`, add `description` when truthy (JS: absent or `""` is
falsy), for object kind with defined `properties` add the compiled
`properties` object together with a `required` list when non-empty, and for
array kind with defined `items` add the compiled `items` schema. -/
def convertField : SchemaField → Json
  | .mk _ _ ty _ desc props its =>
    let base : List (String × Json) := [("type", Json.str ty.typeName)]
    let base := match desc with
      | some d => if d = "" then base else setKey base "description" (Json.str d)
      | none => base
    let base := match ty, props with
      | .object, some ps =>
          let pr := convertProps ps [] []
          let base := setKey base "properties" (Json.obj pr.1)
          if pr.2 = [] then base
          else setKey base "required" (Json.arr (pr.2.map Json.str))
      | _, _ => base
    let base := match ty, its with
      | .array, some it => setKey base "items" (convertField it)
      | _, _ => base
    Json.obj base

/-- The `forEach` loop of Index.tsx lines 320-325 (also the root loop at
lines 345-350): walk the children in order, assigning
`properties[child.name] = convertField(child)` and pushing the names of
required children. -/
def convertProps : List SchemaField → List (String × Json) → List String →
    List (String × Json) × List String
  | [], acc, req => (acc, req)
  | c :: cs, acc, req =>
      convertProps cs (setKey acc c.name (convertField c))
        (if c.required then req ++ [c.name] else req)

end

/-- `generateJsonSchema` from Index.tsx lines 339-356: the fixed top-level
object `{ type: "object", properties, required }`, where the root sequence is
walked exactly like an object node's children and the `required` key is
deleted again when its list stayed empty. -/
def generateJsonSchema (schema : List SchemaField) : Json :=
  let pr := convertProps schema [] []
  Json.obj (("type", Json.str "object") :: ("properties", Json.obj pr.1) ::
    (if pr.2 = [] then [] else [("required", Json.arr (pr.2.map Json.str))]))

/-- The node construction shared by `addField` (lines 286-294) and
`addProperty` (lines 61-71): fresh id, `name = "newField"`, string kind,
optional, no description, no children. -/
def freshField (freshId : String) : SchemaField :=
  .mk freshId "newField" .string false none none none

/-- The default array item from the kind-switch handler, Index.tsx
lines 168-175. -/
def defaultItem (freshId : String) : SchemaField :=
  .mk freshId "item" .string false none none none

/-- `addField` (lines 286-294): append a fresh field to the root sequence. -/
def addField (schema : List SchemaField) (freshId : String) : List SchemaField :=
  schema ++ [freshField freshId]

/-- `updateField` at the root (lines 296-300): replace the entry at `index`.
The UI only passes indices of rendered fields, which are in bounds. -/
def updateField (schema : List SchemaField) (index : Nat) (f : SchemaField) :
    List SchemaField :=
  schema.set index f

/-- `deleteField` (lines 302-304): `schema.filter((_, i) => i !== index)`,
an index-based filter over the enumerated sequence. -/
def deleteField (schema : List SchemaField) (index : Nat) : List SchemaField :=
  (schema.enum.filter (fun p => p.1 ≠ index)).map Prod.snd

/-- The shallow merge `{ ...field, ...updates }` for an update touching only
`name` (line 155). -/
def setName : SchemaField → String → SchemaField
  | .mk i _ ty rq ds ps its, n => .mk i n ty rq ds ps its

/-- The shallow merge for an update touching only `description` (line 217);
the text input always supplies a string, possibly empty. -/
def setDescription : SchemaField → String → SchemaField
  | .mk i n ty rq _ ps its, d => .mk i n ty rq (some d) ps its

/-- The required-badge toggle (line 199): `{ required: !field.required }`. -/
def toggleRequired : SchemaField → SchemaField
  | .mk i n ty rq ds ps its => .mk i n ty (!rq) ds ps its

/-- The kind-switch handler of Index.tsx lines 163-177: the update always
sets `type`; it additionally initializes `properties` to `[]` when switching
to object with `properties` undefined, and `items` to a default string item
when switching to array with `items` undefined.  Everything else is kept by
the shallow merge. -/
def typeSwitch (f : SchemaField) (value : FieldType) (freshId : String) :
    SchemaField :=
  match f with
  | .mk i n _ rq ds props its =>
      let props' := if value = FieldType.object && props.isNone then some [] else props
      let its' := if value = FieldType.array && its.isNone then some (defaultItem freshId) else its
      .mk i n value rq ds props' its'

/-- `addProperty` (lines 61-71): append a fresh field to
`field.properties || []`. -/
def addProperty (f : SchemaField) (freshId : String) : SchemaField :=
  match f with
  | .mk i n ty rq ds props its =>
      .mk i n ty rq ds (some ((props.getD []) ++ [freshField freshId])) its

/-- `updateProperty` (lines 73-77): copy `field.properties || []` and replace
the entry at `index` (the UI only passes indices of rendered children, which
are in bounds). -/
def updateProperty (f : SchemaField) (index : Nat) (child : SchemaField) :
    SchemaField :=
  match f with
  | .mk i n ty rq ds props its =>
      .mk i n ty rq ds (some ((props.getD []).set index child)) its

/-- `deleteProperty` (lines 79-82): the same index-based filter as
`deleteField`, applied to `field.properties`, defaulting to `[]`. -/
def deleteProperty (f : SchemaField) (index : Nat) : SchemaField :=
  match f with
  | .mk i n ty rq ds props its =>
      .mk i n ty rq ds (some (deleteField (props.getD []) index)) its

/-- `updateArrayItems` (lines 84-86): replace the `items` child. -/
def updateArrayItems (f : SchemaField) (child : SchemaField) : SchemaField :=
  match f with
  | .mk i n ty rq ds props _ => .mk i n ty rq ds props (some child)

/-- One step into the tree, following how `FieldEditor` recurses: into the
object child at an index (lines 235-245) or into the array item slot
(lines 249-260). -/
inductive PathStep where
  | prop (i : Nat)
  | item

/-- The edits a `FieldEditor` can apply to its own field: name input,
description input, required badge, kind switch, Add Property button, a
child's delete button (wired to `deleteProperty index` at lines 242), and
the array item's delete button (wired to the no-op `() => {}` at line 257). -/
inductive NodeOp where
  | opName (s : String)
  | opDescription (s : String)
  | opToggleRequired
  | opSwitchType (t : FieldType) (freshId : String)
  | opAddProperty (freshId : String)
  | opDeleteProperty (i : Nat)
  | opDeleteItem

/-- Apply a `NodeOp` to the field whose editor fired it. -/
def applyNodeOp (f : SchemaField) : NodeOp → SchemaField
  | .opName s => setName f s
  | .opDescription s => setDescription f s
  | .opToggleRequired => toggleRequired f
  | .opSwitchType t freshId => typeSwitch f t freshId
  | .opAddProperty freshId => addProperty f freshId
  | .opDeleteProperty i => deleteProperty f i
  | .opDeleteItem => f

/-- Apply a `NodeOp` at a path below `f`, rebuilding every ancestor by
whole-node replacement exactly as the `onUpdate` chain does
(`updateProperty` for object children, `updateArrayItems` for the array
item).  A path into a missing child is never produced by the UI and leaves
the tree unchanged. -/
def applyAtField (f : SchemaField) : List PathStep → NodeOp → SchemaField
  | [], op => applyNodeOp f op
  | .prop i :: rest, op =>
      match (f.properties.getD []).get? i with
      | some c => updateProperty f i (applyAtField c rest op)
      | none => f
  | .item :: rest, op =>
      match f.items with
      | some it => updateArrayItems f (applyAtField it rest op)
      | none => f

/-- A whole editing action on the root state: the Add Field button, a root
field's delete button, or a `NodeOp` fired at the node addressed by root
index and path. -/
inductive TreeOp where
  | opAddField (freshId : String)
  | opDeleteField (i : Nat)
  | opAtNode (i : Nat) (path : List PathStep) (op : NodeOp)

/-- Apply one editing action to the root sequence. -/
def applyOp (schema : List SchemaField) : TreeOp → List SchemaField
  | .opAddField freshId => addField schema freshId
  | .opDeleteField i => deleteField schema i
  | .opAtNode i path op =>
      match schema.get? i with
      | some f => updateField schema i (applyAtField f path op)
      | none => schema

/-- Apply a sequence of editing actions in order. -/
def applyOps (schema : List SchemaField) (ops : List TreeOp) : List SchemaField :=
  ops.foldl applyOp schema

/-- The initial `useState` value of Index.tsx lines 269-284. -/
def initialSchema : List SchemaField :=
  [.mk "field_1" "name" .string true (some "The name of the user") none none,
   .mk "field_2" "age" .number false (some "The age of the user") none none]

mutual

/-- The direction of the §3 invariant that the code maintains: an object node
always has `properties` defined and an array node always has `items` defined
(leftover `properties`/`items` on other kinds are allowed, since the
kind-switch merge keeps them). -/
def WFField : SchemaField → Bool
  | .mk _ _ ty _ _ props its =>
      (!(decide (ty = FieldType.object)) || props.isSome) &&
      (!(decide (ty = FieldType.array)) || its.isSome) &&
      (match props with | some ps => WFList ps | none => true) &&
      (match its with | some it => WFField it | none => true)

def WFList : List SchemaField → Bool
  | [] => true
  | c :: cs => WFField c && WFList cs

end

mutual

/-- The literal both-directions invariant stated in the spec: `properties`
defined iff object kind, `items` defined iff array kind, at every node. -/
def iffInvField : SchemaField → Bool
  | .mk _ _ ty _ _ props its =>
      (decide (props.isSome ↔ ty = FieldType.object)) &&
      (decide (its.isSome ↔ ty = FieldType.array)) &&
      (match props with | some ps => iffInvList ps | none => true) &&
      (match its with | some it => iffInvField it | none => true)

def iffInvList : List SchemaField → Bool
  | [] => true
  | c :: cs => iffInvField c && iffInvList cs

end

mutual

/-- Replace every id in a tree by `""`, leaving all other data unchanged:
two trees are identical except for ids exactly when they have the same
image under `eraseIds`. -/
def eraseIds : SchemaField → SchemaField
  | .mk _ nm ty rq ds props its =>
      .mk "" nm ty rq ds
        (match props with | some ps => some (eraseIdsList ps) | none => none)
        (match its with | some it => some (eraseIds it) | none => none)

def eraseIdsList : List SchemaField → List SchemaField
  | [] => []
  | c :: cs => eraseIds c :: eraseIdsList cs

end

mutual

/-- Whether a key named `k` occurs anywhere in a JSON value, at any depth. -/
def Json.hasKey : Json → String → Bool
  | .str _, _ => false
  | .arr es, k => hasKeyArr es k
  | .obj kvs, k => hasKeyFields kvs k

def hasKeyArr : List Json → String → Bool
  | [], _ => false
  | j :: js, k => j.hasKey k || hasKeyArr js k

def hasKeyFields : List (String × Json) → String → Bool
  | [], _ => false
  | kv :: kvs, k => decide (kv.1 = k) || kv.2.hasKey k || hasKeyFields kvs k

end

mutual

/-- Whether no node anywhere in the tree carries `k` as its `name`. -/
def avoidsName : SchemaField → String → Bool
  | .mk _ nm _ _ _ props its, k =>
      !(decide (nm = k)) &&
      (match props with | some ps => avoidsNameList ps k | none => true) &&
      (match its with | some it => avoidsName it k | none => true)

def avoidsNameList : List SchemaField → String → Bool
  | [], _ => true
  | c :: cs, k => avoidsName c k && avoidsNameList cs k

end

/-- The `description` entry `convertField` contributes: nothing for an
absent or empty description. -/
def descPart : Option String → List (String × Json)
  | some d => if d = "" then [] else [("description", Json.str d)]
  | none => []

/-- The `properties` / `required` entries `convertField` contributes:
present only on object kind with defined children. -/
def objPart : FieldType → Option (List SchemaField) → List (String × Json)
  | .object, some ps =>
      let pr := convertProps ps [] []
      ("properties", Json.obj pr.1) ::
        (if pr.2 = [] then [] else [("required", Json.arr (pr.2.map Json.str))])
  | _, _ => []

/-- The `items` entry `convertField` contributes: present only on array kind
with a defined item. -/
def itemsPart : FieldType → Option SchemaField → List (String × Json)
  | .array, some it => [("items", convertField it)]
  | _, _ => []

/-- Normal form of one `convertField` step: the compiled object is the
`type` entry followed by the optional `description`, object and array
contributions, in assignment order. -/
theorem convertField_eq (i nm : String) (ty : FieldType) (rq : Bool)
    (ds : Option String) (props : Option (List SchemaField))
    (its : Option SchemaField) :
    convertField (.mk i nm ty rq ds props its) =
      Json.obj ([("type", Json.str ty.typeName)] ++ descPart ds ++
        objPart ty props ++ itemsPart ty its) := by
  cases ds with
  | none =>
      cases ty <;> cases props <;> cases its <;>
        simp [convertField, setKey, descPart, objPart, itemsPart] <;>
        split <;> simp [setKey]
  | some d =>
      by_cases hd : d = "" <;>
        cases ty <;> cases props <;> cases its <;>
        simp [convertField, setKey, descPart, objPart, itemsPart, hd] <;>
        split <;> simp [setKey]

/-- Structural induction for `SchemaField`, phrased through the optional
children (derived from strong induction on `sizeOf`). -/
theorem SchemaField.strongInd (P : SchemaField → Prop)
    (h : ∀ i nm ty rq ds props its,
        (∀ ps, props = some ps → ∀ c ∈ ps, P c) →
        (∀ it, its = some it → P it) →
        P (.mk i nm ty rq ds props its)) :
    ∀ f, P f := by
  have key : ∀ n f, sizeOf f < n → P f := by
    intro n
    induction n with
    | zero => intro f hf; omega
    | succ n ih =>
        intro f hf
        cases f with
        | mk i nm ty rq ds props its =>
            apply h
            · intro ps hps c hc
              apply ih
              have h1 : sizeOf c < sizeOf ps := List.sizeOf_lt_of_mem hc
              subst hps
              simp at hf ⊢
              omega
            · intro it hit
              apply ih
              subst hit
              simp at hf ⊢
              omega
  intro f
  exact key (sizeOf f + 1) f (Nat.lt_succ_self _)

theorem lookupKey_setKey_same (l : List (String × Json)) (k : String) (v : Json) :
    lookupKey (setKey l k v) k = some v := by
  induction l with
  | nil => simp [setKey, lookupKey]
  | cons kv rest ih =>
      obtain ⟨k', v'⟩ := kv
      by_cases h : k' = k <;> simp [setKey, lookupKey, h, ih]

theorem lookupKey_setKey_ne (l : List (String × Json)) (k' k : String) (v : Json)
    (h : k' ≠ k) : lookupKey (setKey l k' v) k = lookupKey l k := by
  induction l with
  | nil => simp [setKey, lookupKey, h]
  | cons kv rest ih =>
      obtain ⟨k'', v''⟩ := kv
      by_cases h2 : k'' = k' <;> by_cases h3 : k'' = k <;>
        simp_all [setKey, lookupKey]

theorem setKey_of_not_mem (l : List (String × Json)) (k : String) (v : Json)
    (h : k ∉ l.map Prod.fst) : setKey l k v = l ++ [(k, v)] := by
  induction l with
  | nil => simp [setKey]
  | cons kv rest ih =>
      simp only [List.map_cons, List.mem_cons] at h
      push_neg at h
      simp [setKey, Ne.symm h.1, ih h.2]

/-- The second component accumulated by the compile loop is exactly the
names of the required children, appended in order. -/
theorem convertProps_snd (ps : List SchemaField) (acc : List (String × Json))
    (req : List String) :
    (convertProps ps acc req).2 =
      req ++ (ps.filter (fun c => c.required)).map SchemaField.name := by
  induction ps generalizing acc req with
  | nil => simp [convertProps]
  | cons c cs ih =>
      by_cases h : c.required <;> simp [convertProps, h, ih]

/-- With pairwise distinct child names that also avoid the accumulator, the
compile loop appends one entry per child, in child order. -/
theorem convertProps_fst_nodup (ps : List SchemaField) (acc : List (String × Json))
    (req : List String) (hd : (ps.map SchemaField.name).Nodup)
    (ha : ∀ c ∈ ps, c.name ∉ acc.map Prod.fst) :
    (convertProps ps acc req).1 =
      acc ++ ps.map (fun c => (c.name, convertField c)) := by
  induction ps generalizing acc req with
  | nil => simp [convertProps]
  | cons c cs ih =>
      simp only [List.map_cons, List.nodup_cons] at hd
      rw [convertProps, setKey_of_not_mem _ _ _ (ha c (by simp))]
      rw [ih _ _ hd.2]
      · simp
      · intro c' hc'
        simp only [List.map_append, List.mem_append]
        push_neg
        refine ⟨ha c' (by simp [hc']), ?_⟩
        simp only [List.map_cons, List.map_nil, List.mem_singleton]
        intro hEq
        exact hd.1 (hEq ▸ List.mem_map_of_mem SchemaField.name hc')

/-- Looking a name up in the compiled properties finds the compiled schema of
the last child carrying that name (and falls back to the accumulator when no
child does): JS assignment semantics make the last write win. -/
theorem lookupKey_convertProps (ps : List SchemaField) (acc : List (String × Json))
    (req : List String) (k : String) :
    lookupKey (convertProps ps acc req).1 k =
      match (ps.filter (fun c => decide (c.name = k))).getLast? with
      | some c => some (convertField c)
      | none => lookupKey acc k := by
  induction ps generalizing acc req with
  | nil => simp [convertProps]
  | cons c cs ih =>
      rw [convertProps, ih]
      by_cases h : c.name = k
      · cases hcs : cs.filter (fun c => decide (c.name = k)) with
        | nil => simp [List.filter_cons, hcs, h, lookupKey_setKey_same]
        | cons x t =>
            simp only [List.filter_cons, h, decide_True, if_true, hcs,
              List.getLast?_cons_cons]
            cases hx : (x :: t).getLast? with
            | none => simp [List.getLast?] at hx
            | some y => simp
      · simp only [List.filter_cons, h, decide_False, Bool.false_eq_true,
          if_false]
        cases hcs : cs.filter (fun c => decide (c.name = k)) <;>
          simp [hcs, lookupKey_setKey_ne _ _ _ _ h]

theorem lookupKey_append (l1 l2 : List (String × Json)) (k : String) :
    lookupKey (l1 ++ l2) k =
      match lookupKey l1 k with
      | some v => some v
      | none => lookupKey l2 k := by
  induction l1 with
  | nil => simp [lookupKey]
  | cons kv rest ih =>
      by_cases h : kv.1 = k <;> simp [lookupKey, h, ih]

theorem lookupKey_descPart_ne (ds : Option String) (k : String)
    (h : k ≠ "description") : lookupKey (descPart ds) k = none := by
  cases ds with
  | none => simp [descPart, lookupKey]
  | some d =>
      by_cases hd : d = "" <;> simp [descPart, hd, lookupKey, Ne.symm h]

theorem objPart_not_object (ty : FieldType) (props : Option (List SchemaField))
    (h : ty ≠ FieldType.object) : objPart ty props = [] := by
  cases ty <;> cases props <;> simp_all [objPart]

theorem itemsPart_not_array (ty : FieldType) (its : Option SchemaField)
    (h : ty ≠ FieldType.array) : itemsPart ty its = [] := by
  cases ty <;> cases its <;> simp_all [itemsPart]

theorem lookupKey_objPart_ne (ty : FieldType) (props : Option (List SchemaField))
    (k : String) (h1 : k ≠ "properties") (h2 : k ≠ "required") :
    lookupKey (objPart ty props) k = none := by
  cases ty <;> cases props <;>
    simp [objPart, lookupKey, Ne.symm h1] <;>
    split <;> simp [lookupKey, Ne.symm h2]

theorem lookupKey_itemsPart_ne (ty : FieldType) (its : Option SchemaField)
    (k : String) (h : k ≠ "items") : lookupKey (itemsPart ty its) k = none := by
  cases ty <;> cases its <;> simp [itemsPart, lookupKey, Ne.symm h]

/-- The compiled schema of an object node with defined children carries the
compiled children under `properties`. -/
theorem getKey_convertField_properties (i nm : String) (rq : Bool)
    (ds : Option String) (ps : List SchemaField) (its : Option SchemaField) :
    Json.getKey (convertField (.mk i nm .object rq ds (some ps) its))
        "properties" = some (Json.obj (convertProps ps [] []).1) := by
  rw [convertField_eq]
  rw [itemsPart_not_array _ _ (by simp)]
  simp only [Json.getKey, List.append_nil, List.cons_append, List.nil_append]
  rw [lookupKey, if_neg (by decide), lookupKey_append,
    lookupKey_descPart_ne _ _ (by decide)]
  simp [objPart, lookupKey]

/-- The compiled schema of an object node with defined children carries the
names of its required children under `required`, unless none is required. -/
theorem getKey_convertField_required (i nm : String) (rq : Bool)
    (ds : Option String) (ps : List SchemaField) (its : Option SchemaField) :
    Json.getKey (convertField (.mk i nm .object rq ds (some ps) its))
        "required" =
      (if (convertProps ps [] []).2 = [] then none
       else some (Json.arr ((convertProps ps [] []).2.map Json.str))) := by
  rw [convertField_eq]
  rw [itemsPart_not_array _ _ (by simp)]
  simp only [Json.getKey, List.append_nil, List.cons_append, List.nil_append]
  rw [lookupKey, if_neg (by decide), lookupKey_append,
    lookupKey_descPart_ne _ _ (by decide)]
  simp only [objPart]
  split <;> simp [lookupKey]

/-- Claim C1: for every field tree (including the empty one),
`generateJsonSchema` yields an object with `type: "object"`, whose
`properties` key holds the root children compiled by the shared loop — one
entry per root node, keyed by name and in root-sequence order whenever the
root names are pairwise distinct — and whose `required` key lists exactly
the names of the required root nodes in original order, being absent
entirely when no root node is required. -/
theorem C1_top_level_schema (s : List SchemaField) :
    Json.getKey (generateJsonSchema s) "type" = some (Json.str "object")
    ∧ Json.getKey (generateJsonSchema s) "properties" =
        some (Json.obj (convertProps s [] []).1)
    ∧ ((s.map SchemaField.name).Nodup →
        Json.getKey (generateJsonSchema s) "properties" =
          some (Json.obj (s.map (fun f => (f.name, convertField f)))))
    ∧ Json.getKey (generateJsonSchema s) "required" =
        (if (s.filter (fun f => f.required)).isEmpty then none
         else some (Json.arr (((s.filter (fun f => f.required)).map
            SchemaField.name).map Json.str))) := by
  have h2 := convertProps_snd s [] []
  simp only [List.nil_append] at h2
  refine ⟨?_, ?_, ?_, ?_⟩
  · simp only [generateJsonSchema, Json.getKey]
    rw [lookupKey, if_pos rfl]
  · simp only [generateJsonSchema, Json.getKey]
    rw [lookupKey, if_neg (by decide), lookupKey, if_pos rfl]
  · intro hnd
    have hfold := convertProps_fst_nodup s [] [] hnd (by simp)
    simp only [List.nil_append] at hfold
    simp only [generateJsonSchema, Json.getKey, hfold]
    rw [lookupKey, if_neg (by decide), lookupKey, if_pos rfl]
  · simp only [generateJsonSchema, Json.getKey, h2]
    rw [lookupKey, if_neg (by decide), lookupKey, if_neg (by decide)]
    by_cases hreq : s.filter (fun f => f.required) = []
    · simp [hreq, lookupKey]
    · have hne : (s.filter (fun f => f.required)).isEmpty = false := by
        simpa [List.isEmpty_iff] using hreq
      simp [hreq, List.map_eq_nil_iff, hne, lookupKey]

/-- Closed instance of the claim C1 theorem at the initial two-field state,
whose root names are distinct. -/
theorem C1_top_level_schema_witness :
    Json.getKey (generateJsonSchema initialSchema) "properties" =
      some (Json.obj (initialSchema.map (fun f => (f.name, convertField f)))) :=
  (C1_top_level_schema initialSchema).2.2.1 (by decide)

/-- Claim C2: the compiled schema of an object node with defined children
has a `required` key exactly when some direct child is required, and the
list holds the required children's names in `properties`-sequence order. -/
theorem C2_required_key_iff (i nm : String) (rq : Bool) (ds : Option String)
    (ps : List SchemaField) (its : Option SchemaField) :
    Json.getKey (convertField (.mk i nm .object rq ds (some ps) its))
        "required" =
      (if (ps.filter (fun c => c.required)).isEmpty then none
       else some (Json.arr (((ps.filter (fun c => c.required)).map
          SchemaField.name).map Json.str)))
    ∧ ((Json.getKey (convertField (.mk i nm .object rq ds (some ps) its))
        "required").isSome ↔ ∃ c ∈ ps, c.required = true) := by
  have h2 := convertProps_snd ps [] []
  simp only [List.nil_append] at h2
  have hmain : Json.getKey (convertField (.mk i nm .object rq ds (some ps) its))
      "required" =
      (if (ps.filter (fun c => c.required)).isEmpty then none
       else some (Json.arr (((ps.filter (fun c => c.required)).map
          SchemaField.name).map Json.str))) := by
    rw [getKey_convertField_required, h2]
    by_cases hreq : ps.filter (fun c => c.required) = []
    · simp [hreq]
    · have hne : (ps.filter (fun c => c.required)).isEmpty = false := by
        simpa [List.isEmpty_iff] using hreq
      simp [hreq, List.map_eq_nil_iff, hne]
  refine ⟨hmain, ?_⟩
  rw [hmain]
  by_cases hreq : ps.filter (fun c => c.required) = []
  · rw [if_pos (by simp [hreq])]
    simp only [Option.isSome_none, Bool.false_eq_true, false_iff]
    rintro ⟨c, hc, hr⟩
    rw [List.filter_eq_nil_iff] at hreq
    exact absurd hr (by simpa using hreq c hc)
  · rw [if_neg (by simpa [List.isEmpty_iff] using hreq)]
    simp only [Option.isSome_some, true_iff]
    obtain ⟨c, hc⟩ := List.exists_mem_of_ne_nil _ hreq
    rw [List.mem_filter] at hc
    exact ⟨c, hc.1, hc.2⟩

/-- Claim C6: compilation is total on duplicate or empty names, and in the
compiled `properties` mapping of an object node a name shared by several
children is bound to the compiled schema of the last such child (JS
assignment semantics: last write wins, first occurrence keeps the slot). -/
theorem C6_duplicate_names_last_wins (i nm : String) (rq : Bool)
    (ds : Option String) (ps : List SchemaField) (its : Option SchemaField)
    (k : String) :
    Json.getKey (convertField (.mk i nm .object rq ds (some ps) its))
        "properties" = some (Json.obj (convertProps ps [] []).1)
    ∧ lookupKey (convertProps ps [] []).1 k =
        ((ps.filter (fun c => decide (c.name = k))).getLast?).map
          convertField := by
  refine ⟨getKey_convertField_properties i nm rq ds ps its, ?_⟩
  rw [lookupKey_convertProps]
  cases (ps.filter (fun c => decide (c.name = k))).getLast? with
  | none => simp [lookupKey]
  | some c => simp

/-- Claim C9: a node whose kind is not object compiles without `properties`
and without `required` keys, even when a leftover `properties` sequence is
still attached; a node whose kind is not array compiles without an `items`
key, even when a leftover `items` child is still attached. -/
theorem C9_leftover_children_ignored (i nm : String) (ty : FieldType)
    (rq : Bool) (ds : Option String) (props : Option (List SchemaField))
    (its : Option SchemaField) :
    (ty ≠ FieldType.object →
      Json.getKey (convertField (.mk i nm ty rq ds props its))
          "properties" = none
      ∧ Json.getKey (convertField (.mk i nm ty rq ds props its))
          "required" = none)
    ∧ (ty ≠ FieldType.array →
      Json.getKey (convertField (.mk i nm ty rq ds props its))
          "items" = none) := by
  rw [convertField_eq]
  constructor
  · intro hty
    rw [objPart_not_object _ _ hty]
    constructor
    · simp only [Json.getKey, List.append_nil, List.cons_append,
        List.nil_append]
      rw [lookupKey, if_neg (by decide), lookupKey_append,
        lookupKey_descPart_ne _ _ (by decide),
        lookupKey_itemsPart_ne _ _ _ (by decide)]
    · simp only [Json.getKey, List.append_nil, List.cons_append,
        List.nil_append]
      rw [lookupKey, if_neg (by decide), lookupKey_append,
        lookupKey_descPart_ne _ _ (by decide),
        lookupKey_itemsPart_ne _ _ _ (by decide)]
  · intro hty
    rw [itemsPart_not_array _ _ hty]
    simp only [Json.getKey, List.append_nil, List.cons_append,
      List.nil_append]
    rw [lookupKey, if_neg (by decide), lookupKey_append,
      lookupKey_descPart_ne _ _ (by decide),
      lookupKey_objPart_ne _ _ _ (by decide) (by decide)]

/-- Closed instance of the claim C9 theorem: a string-kind node still
carrying leftover object children and a leftover array item compiles to a
schema with none of the `properties`, `required` and `items` keys. -/
theorem C9_leftover_children_ignored_witness :
    Json.getKey (convertField (.mk "f1" "x" .string true none
        (some [.mk "f2" "y" .string true none none none])
        (some (.mk "f3" "item" .string false none none none))))
        "properties" = none
    ∧ Json.getKey (convertField (.mk "f1" "x" .string true none
        (some [.mk "f2" "y" .string true none none none])
        (some (.mk "f3" "item" .string false none none none))))
        "required" = none
    ∧ Json.getKey (convertField (.mk "f1" "x" .string true none
        (some [.mk "f2" "y" .string true none none none])
        (some (.mk "f3" "item" .string false none none none))))
        "items" = none :=
  ⟨((C9_leftover_children_ignored "f1" "x" .string true none
      (some [.mk "f2" "y" .string true none none none])
      (some (.mk "f3" "item" .string false none none none))).1
        (by decide)).1,
   ((C9_leftover_children_ignored "f1" "x" .string true none
      (some [.mk "f2" "y" .string true none none none])
      (some (.mk "f3" "item" .string false none none none))).1
        (by decide)).2,
   (C9_leftover_children_ignored "f1" "x" .string true none
      (some [.mk "f2" "y" .string true none none none])
      (some (.mk "f3" "item" .string false none none none))).2
        (by decide)⟩

/-- Claim C4: switching a node's kind to object when `properties` is absent
initializes `properties` to the empty sequence; switching to array when
`items` is absent initializes `items` to the default item node carrying the
freshly generated id, name `"item"`, string kind and `required = false`; in
both cases every other component of the node survives the shallow merge
unchanged. -/
theorem C4_type_switch_defaults (i nm : String) (ty : FieldType) (rq : Bool)
    (ds : Option String) (props : Option (List SchemaField))
    (its : Option SchemaField) (freshId : String) :
    typeSwitch (.mk i nm ty rq ds none its) .object freshId =
      .mk i nm .object rq ds (some []) its
    ∧ typeSwitch (.mk i nm ty rq ds props none) .array freshId =
      .mk i nm .array rq ds props
        (some (.mk freshId "item" .string false none none none)) := by
  constructor
  · simp [typeSwitch]
  · simp [typeSwitch, defaultItem]

/-- Claim C5: on an object node with non-empty defined children, switching
the kind away from object and then immediately back, with no other mutation
in between, keeps the original children: the shallow merge never drops the
`properties` component, and the switch back to object finds it defined and
leaves it alone. -/
theorem C5_kind_switch_round_trip (f : SchemaField) (ps : List SchemaField)
    (t : FieldType) (c1 c2 : String) (hty : f.type = FieldType.object)
    (hp : f.properties = some ps) (hne : ps ≠ [])
    (ht : t ≠ FieldType.object) :
    (typeSwitch (typeSwitch f t c1) .object c2).properties = some ps := by
  cases f with
  | mk i nm ty rq ds props its =>
      simp only [SchemaField.properties] at hp
      subst hp
      simp [typeSwitch, SchemaField.properties]

/-- Closed instance of the claim C5 theorem: an object node with one child,
switched to string and back to object, keeps its child list. -/
theorem C5_kind_switch_round_trip_witness :
    (typeSwitch (typeSwitch
        (.mk "f1" "user" .object false none
          (some [.mk "f2" "age" .number true none none none]) none)
        .string "c1") .object "c2").properties =
      some [.mk "f2" "age" .number true none none none] :=
  C5_kind_switch_round_trip _ _ _ "c1" "c2" rfl rfl
    (by simp) (by decide)

/-- The index-based filter behind `deleteField`, over an enumeration
starting at `n`: indices below `n` never match, so the element removed is
the one at offset `index - n`. -/
theorem deleteField_enumFrom (xs : List SchemaField) :
    ∀ (n index : Nat),
      ((xs.enumFrom n).filter (fun p => p.1 ≠ index)).map Prod.snd =
        if index < n then xs else xs.eraseIdx (index - n) := by
  induction xs with
  | nil => intro n index; simp [List.enumFrom]
  | cons x xs ih =>
      intro n index
      rw [List.enumFrom_cons]
      by_cases h : n = index
      · subst h
        have ih2 := ih (n + 1) n
        rw [if_pos (by omega)] at ih2
        simp only [ne_eq, decide_not] at ih2
        rw [if_neg (by omega), Nat.sub_self, List.eraseIdx_cons_zero]
        simp [List.filter_cons, ih2]
      · have ih2 := ih (n + 1) index
        simp only [ne_eq, decide_not] at ih2
        by_cases h2 : index < n
        · rw [if_pos (by omega)] at ih2
          rw [if_pos (by omega)]
          simp [List.filter_cons, h, ih2]
        · rw [if_neg (by omega)] at ih2
          rw [if_neg (by omega),
            show index - n = (index - (n + 1)) + 1 by omega,
            List.eraseIdx_cons_succ]
          simp [List.filter_cons, h, ih2]

/-- `deleteField` is removal of the entry at the given index. -/
theorem deleteField_eq_eraseIdx (xs : List SchemaField) (index : Nat) :
    deleteField xs index = xs.eraseIdx index := by
  rw [deleteField, show xs.enum = xs.enumFrom 0 from rfl,
    deleteField_enumFrom xs 0 index, if_neg (by omega), Nat.sub_zero]

/-- Claim C7: deleting index `i` from a sequence of `n` siblings (the root
sequence, or an object node's children through `deleteProperty`) yields the
other `n - 1` nodes in their original relative order: entries below `i` keep
their positions and entries above `i` shift down by one. -/
theorem C7_delete_is_index_stable (xs : List SchemaField) (i : Nat)
    (h : i < xs.length) :
    (deleteField xs i).length = xs.length - 1
    ∧ (∀ j, j < i → (deleteField xs i)[j]? = xs[j]?)
    ∧ (∀ j, i ≤ j → j < xs.length - 1 → (deleteField xs i)[j]? = xs[j + 1]?)
    ∧ (∀ f : SchemaField, (deleteProperty f i).properties =
        some (deleteField (f.properties.getD []) i)) := by
  rw [deleteField_eq_eraseIdx]
  refine ⟨?_, ?_, ?_, ?_⟩
  · rw [List.length_eraseIdx]
    simp [h]
  · intro j hj
    rw [List.eraseIdx_eq_take_drop_succ, List.getElem?_append_left
      (by simp [List.length_take]; omega), List.getElem?_take_of_lt hj]
  · intro j hj1 hj2
    rw [List.eraseIdx_eq_take_drop_succ, List.getElem?_append_right
      (by simp [List.length_take]; omega), List.getElem?_drop]
    congr 1
    simp only [List.length_take]
    omega
  · intro f
    cases f with
    | mk i' n' ty rq ds props its =>
        simp [deleteProperty, SchemaField.properties,
          deleteField_eq_eraseIdx]

/-- Closed instance of the claim C7 theorem: deleting index 1 from a
three-node root sequence keeps nodes 0 and 2, with node 2 moving to
index 1. -/
theorem C7_delete_is_index_stable_witness :
    (deleteField [freshField "a", freshField "b", freshField "c"] 1).length = 2
    ∧ (deleteField [freshField "a", freshField "b", freshField "c"] 1)[0]? =
        some (freshField "a")
    ∧ (deleteField [freshField "a", freshField "b", freshField "c"] 1)[1]? =
        some (freshField "c") := by
  obtain ⟨h1, h2, h3, _⟩ := C7_delete_is_index_stable
    [freshField "a", freshField "b", freshField "c"] 1 (by simp)
  exact ⟨h1, h2 0 (by omega), h3 1 (by omega) (by simp)⟩

/-- `l.set i a` leaves `l` unchanged when `a` is already the entry at `i`. -/
theorem set_getElem?_self (l : List SchemaField) (i : Nat) (a : SchemaField)
    (h : l[i]? = some a) : l.set i a = l := by
  induction l generalizing i with
  | nil => simp at h
  | cons x xs ih =>
      cases i with
      | zero => simp at h; simp [h]
      | succ i => simp at h; simp [List.set_cons_succ, ih i h]

/-- Firing the array item's delete button leaves the field unchanged: the
slot's `onDelete` is the empty closure, and rebuilding each ancestor with
its own unchanged child changes nothing. -/
theorem applyAtField_deleteItem (p : List PathStep) :
    ∀ f : SchemaField, applyAtField f p NodeOp.opDeleteItem = f := by
  induction p with
  | nil => intro f; rfl
  | cons step rest ih =>
      intro f
      cases step with
      | prop i =>
          rw [applyAtField]
          cases hc : (f.properties.getD []).get? i with
          | none => rfl
          | some c =>
              simp only [ih c]
              cases f with
              | mk i' n' ty rq ds props its =>
                  cases props with
                  | none => simp [SchemaField.properties] at hc
                  | some ps =>
                      simp only [SchemaField.properties, Option.getD_some,
                        List.get?_eq_getElem?] at hc
                      simp [updateProperty, SchemaField.properties,
                        set_getElem?_self ps i c hc]
      | item =>
          rw [applyAtField]
          cases f with
          | mk i' n' ty rq ds props its =>
              cases its with
              | none => simp [SchemaField.items]
              | some it =>
                  simp [SchemaField.items, ih it, updateArrayItems]

/-- Claim C8: invoking the delete action wired to the single item node of an
array-kind field leaves the entire field tree unchanged, whatever root index
and path address the array field. -/
theorem C8_array_item_delete_noop (s : List SchemaField) (i : Nat)
    (p : List PathStep) :
    applyOp s (TreeOp.opAtNode i p NodeOp.opDeleteItem) = s := by
  rw [applyOp]
  cases hf : s.get? i with
  | none => rfl
  | some f =>
      simp only [applyAtField_deleteItem, updateField]
      exact set_getElem?_self s i f (by rw [← List.get?_eq_getElem?]; exact hf)

theorem WFList_iff (ps : List SchemaField) :
    WFList ps = true ↔ ∀ c ∈ ps, WFField c = true := by
  induction ps with
  | nil => simp [WFList]
  | cons c cs ih => simp [WFList, Bool.and_eq_true, ih]

theorem WFField_iff (i nm : String) (ty : FieldType) (rq : Bool)
    (ds : Option String) (props : Option (List SchemaField))
    (its : Option SchemaField) :
    WFField (.mk i nm ty rq ds props its) = true ↔
      ((ty = FieldType.object → props.isSome = true) ∧
       (ty = FieldType.array → its.isSome = true) ∧
       (∀ ps, props = some ps → WFList ps = true) ∧
       (∀ it, its = some it → WFField it = true)) := by
  cases props <;> cases its <;>
    by_cases h1 : ty = FieldType.object <;>
    by_cases h2 : ty = FieldType.array <;>
      simp_all [WFField]

theorem WFList_set (ps : List SchemaField) (i : Nat) (c : SchemaField)
    (hps : WFList ps = true) (hc : WFField c = true) :
    WFList (ps.set i c) = true := by
  rw [WFList_iff] at hps ⊢
  intro c' hc'
  rcases List.mem_or_eq_of_mem_set hc' with h | h
  · exact hps c' h
  · exact h ▸ hc

theorem WFList_append (ps qs : List SchemaField)
    (hps : WFList ps = true) (hqs : WFList qs = true) :
    WFList (ps ++ qs) = true := by
  rw [WFList_iff] at hps hqs ⊢
  intro c hc
  rcases List.mem_append.mp hc with h | h
  · exact hps c h
  · exact hqs c h

theorem WFList_deleteField (ps : List SchemaField) (i : Nat)
    (hps : WFList ps = true) : WFList (deleteField ps i) = true := by
  rw [deleteField_eq_eraseIdx]
  rw [WFList_iff] at hps ⊢
  intro c hc
  exact hps c (List.eraseIdx_subset _ _ hc)

theorem wf_applyNodeOp (f : SchemaField) (op : NodeOp)
    (h : WFField f = true) : WFField (applyNodeOp f op) = true := by
  cases f with
  | mk i nm ty rq ds props its =>
      rw [WFField_iff] at h
      obtain ⟨h1, h2, h3, h4⟩ := h
      cases op with
      | opName s => rw [applyNodeOp, setName, WFField_iff]; exact ⟨h1, h2, h3, h4⟩
      | opDescription s =>
          rw [applyNodeOp, setDescription, WFField_iff]; exact ⟨h1, h2, h3, h4⟩
      | opToggleRequired =>
          rw [applyNodeOp, toggleRequired, WFField_iff]; exact ⟨h1, h2, h3, h4⟩
      | opSwitchType t freshId =>
          rw [applyNodeOp, typeSwitch, WFField_iff]
          refine ⟨?_, ?_, ?_, ?_⟩
          · intro ht
            subst ht
            cases props <;> simp
          · intro ht
            subst ht
            cases its <;> simp
          · intro ps hps
            split at hps
            · cases hps
              rfl
            · exact h3 ps hps
          · intro it hit
            split at hit
            · cases hit
              rfl
            · exact h4 it hit
      | opAddProperty freshId =>
          rw [applyNodeOp, addProperty, WFField_iff]
          refine ⟨fun _ => rfl, h2, ?_, h4⟩
          intro ps hps
          cases hps
          refine WFList_append _ _ ?_ rfl
          cases props with
          | none => rfl
          | some ps0 => exact h3 ps0 rfl
      | opDeleteProperty j =>
          rw [applyNodeOp, deleteProperty, WFField_iff]
          refine ⟨fun _ => rfl, h2, ?_, h4⟩
          intro ps hps
          cases hps
          refine WFList_deleteField _ _ ?_
          cases props with
          | none => rfl
          | some ps0 => exact h3 ps0 rfl
      | opDeleteItem => rw [applyNodeOp]; rw [WFField_iff]; exact ⟨h1, h2, h3, h4⟩

theorem wf_applyAtField (p : List PathStep) :
    ∀ (f : SchemaField) (op : NodeOp), WFField f = true →
      WFField (applyAtField f p op) = true := by
  induction p with
  | nil => intro f op h; exact wf_applyNodeOp f op h
  | cons step rest ih =>
      intro f op h
      cases step with
      | prop j =>
          rw [applyAtField]
          cases hc : (f.properties.getD []).get? j with
          | none => exact h
          | some c =>
              cases f with
              | mk i nm ty rq ds props its =>
                  cases props with
                  | none => simp [SchemaField.properties] at hc
                  | some ps =>
                      simp only [SchemaField.properties, Option.getD_some] at hc
                      rw [WFField_iff] at h
                      obtain ⟨h1, h2, h3, h4⟩ := h
                      have hcwf : WFField c = true :=
                        (WFList_iff ps).mp (h3 ps rfl) c
                          (List.get?_mem hc)
                      simp only [updateProperty]
                      rw [WFField_iff]
                      refine ⟨fun _ => rfl, h2, ?_, h4⟩
                      intro ps' hps'
                      cases hps'
                      simp only [SchemaField.properties, Option.getD_some]
                      exact WFList_set ps j _ (h3 ps rfl) (ih c op hcwf)
      | item =>
          rw [applyAtField]
          cases f with
          | mk i nm ty rq ds props its =>
              cases its with
              | none => simpa [SchemaField.items] using h
              | some it =>
                  simp only [SchemaField.items]
                  rw [WFField_iff] at h
                  obtain ⟨h1, h2, h3, h4⟩ := h
                  rw [updateArrayItems, WFField_iff]
                  refine ⟨h1, fun _ => rfl, h3, ?_⟩
                  intro it' hit'
                  cases hit'
                  exact ih it op (h4 it rfl)

theorem wf_applyOp (s : List SchemaField) (op : TreeOp)
    (h : WFList s = true) : WFList (applyOp s op) = true := by
  cases op with
  | opAddField freshId =>
      rw [applyOp, addField]
      exact WFList_append _ _ h rfl
  | opDeleteField i =>
      rw [applyOp]
      exact WFList_deleteField _ _ h
  | opAtNode i p nop =>
      rw [applyOp]
      cases hf : s.get? i with
      | none => exact h
      | some f =>
          have hfwf : WFField f = true := (WFList_iff s).mp h f (List.get?_mem hf)
          simp only [updateField]
          exact WFList_set s i _ h (wf_applyAtField p f nop hfwf)

/-- A counterexample to claim C3 as stated: switching the first root field
to object and then back to string leaves a string-kind node whose leftover
`properties` sequence is still defined, so the both-directions invariant
(`properties` defined iff object kind, `items` defined iff array kind)
fails after this two-step edit even though the initial state satisfies it. -/
theorem C3_iff_invariant_counterexample :
    iffInvList initialSchema = true
    ∧ iffInvList (applyOps initialSchema
        [TreeOp.opAtNode 0 [] (NodeOp.opSwitchType .object "f3"),
         TreeOp.opAtNode 0 [] (NodeOp.opSwitchType .string "f4")]) = false :=
  ⟨rfl, rfl⟩

/-- Claim C3, amended: after any sequence of mutation operations starting
from a tree whose nodes all satisfy it, every node still satisfies the
one-directional invariant — `properties` is defined whenever the kind is
object and `items` is defined whenever the kind is array.  (The stated
both-directions version fails: switching a kind away keeps the leftover
`properties`/`items`, see the counterexample.) -/
theorem C3_amended_invariant (ops : List TreeOp) (s : List SchemaField)
    (h : WFList s = true) : WFList (applyOps s ops) = true := by
  induction ops generalizing s with
  | nil => exact h
  | cons op ops ih =>
      rw [applyOps, List.foldl_cons]
      exact ih (applyOp s op) (wf_applyOp s op h)

/-- Closed instance of the amended claim C3 theorem: a five-step editing
session from the initial state (add a field, make it an array, make its
item an object, give that object a child, delete the first root field)
keeps every node well-formed. -/
theorem C3_amended_invariant_witness :
    WFList (applyOps initialSchema
      [TreeOp.opAddField "f3",
       TreeOp.opAtNode 2 [] (NodeOp.opSwitchType .array "f4"),
       TreeOp.opAtNode 2 [.item] (NodeOp.opSwitchType .object "f5"),
       TreeOp.opAtNode 2 [.item] (NodeOp.opAddProperty "f6"),
       TreeOp.opDeleteField 0]) = true :=
  C3_amended_invariant _ initialSchema rfl

theorem eraseIds_name (c : SchemaField) : (eraseIds c).name = c.name := by
  cases c with
  | mk i nm ty rq ds props its => rw [eraseIds.eq_def]; rfl

theorem eraseIds_required (c : SchemaField) :
    (eraseIds c).required = c.required := by
  cases c with
  | mk i nm ty rq ds props its => rw [eraseIds.eq_def]; rfl

/-- The compile loop cannot see ids, provided the compiled children do not
depend on them. -/
theorem convertProps_eraseIdsList (ps : List SchemaField)
    (h : ∀ c ∈ ps, convertField (eraseIds c) = convertField c) :
    ∀ (acc : List (String × Json)) (req : List String),
      convertProps (eraseIdsList ps) acc req = convertProps ps acc req := by
  induction ps with
  | nil => intro acc req; rfl
  | cons c cs ih =>
      intro acc req
      rw [eraseIdsList.eq_def]
      show convertProps (eraseIds c :: eraseIdsList cs) acc req =
        convertProps (c :: cs) acc req
      rw [convertProps, convertProps, eraseIds_name, eraseIds_required,
        h c (by simp)]
      exact ih (fun c' hc' => h c' (by simp [hc'])) _ _

/-- `convertField` never looks at ids. -/
theorem convertField_eraseIds (f : SchemaField) :
    convertField (eraseIds f) = convertField f := by
  induction f using SchemaField.strongInd with
  | h i nm ty rq ds props its ihp ihi =>
      cases props with
      | none =>
          cases its with
          | none =>
              rw [eraseIds.eq_def]
              show convertField (.mk "" nm ty rq ds none none) =
                convertField (.mk i nm ty rq ds none none)
              rw [convertField_eq, convertField_eq]
          | some it =>
              rw [eraseIds.eq_def]
              show convertField (.mk "" nm ty rq ds none (some (eraseIds it))) =
                convertField (.mk i nm ty rq ds none (some it))
              rw [convertField_eq, convertField_eq]
              cases ty <;> simp [itemsPart, ihi it rfl]
      | some ps =>
          have hps : convertProps (eraseIdsList ps) ([] : List (String × Json))
              ([] : List String) = convertProps ps [] [] :=
            convertProps_eraseIdsList ps (fun c hc => ihp ps rfl c hc) [] []
          cases its with
          | none =>
              rw [eraseIds.eq_def]
              show convertField
                  (.mk "" nm ty rq ds (some (eraseIdsList ps)) none) =
                convertField (.mk i nm ty rq ds (some ps) none)
              rw [convertField_eq, convertField_eq]
              cases ty <;> simp [objPart, hps]
          | some it =>
              rw [eraseIds.eq_def]
              show convertField (.mk "" nm ty rq ds (some (eraseIdsList ps))
                  (some (eraseIds it))) =
                convertField (.mk i nm ty rq ds (some ps) (some it))
              rw [convertField_eq, convertField_eq]
              cases ty <;> simp [objPart, itemsPart, hps, ihi it rfl]

/-- `generateJsonSchema` never looks at ids. -/
theorem generateJsonSchema_eraseIdsList (s : List SchemaField) :
    generateJsonSchema (eraseIdsList s) = generateJsonSchema s := by
  rw [generateJsonSchema, generateJsonSchema,
    convertProps_eraseIdsList s (fun c _ => convertField_eraseIds c) [] []]

theorem hasKeyFields_append (l1 l2 : List (String × Json)) (k : String) :
    hasKeyFields (l1 ++ l2) k = (hasKeyFields l1 k || hasKeyFields l2 k) := by
  induction l1 with
  | nil => simp [hasKeyFields]
  | cons kv rest ih => simp [hasKeyFields, ih, Bool.or_assoc]

theorem hasKeyFields_setKey (l : List (String × Json)) (k' k : String)
    (v : Json) (h1 : k' ≠ k) (h2 : v.hasKey k = false)
    (h3 : hasKeyFields l k = false) :
    hasKeyFields (setKey l k' v) k = false := by
  induction l with
  | nil => simp [setKey, hasKeyFields, h1, h2]
  | cons kv rest ih =>
      rw [hasKeyFields] at h3
      simp only [Bool.or_eq_false_iff] at h3
      by_cases h : kv.1 = k'
      · obtain ⟨k0, v0⟩ := kv
        simp only at h
        subst h
        simp [setKey, hasKeyFields, h1, h2, h3.2]
      · obtain ⟨k0, v0⟩ := kv
        simp only at h
        simp [setKey, h, hasKeyFields, h3.1.1, h3.1.2, ih h3.2]

theorem hasKeyArr_map_str (ss : List String) (k : String) :
    hasKeyArr (ss.map Json.str) k = false := by
  induction ss with
  | nil => rw [List.map_nil, hasKeyArr]
  | cons s ss ih => simp [hasKeyArr, Json.hasKey, ih]

theorem hasKeyFields_convertProps (ps : List SchemaField) (k : String)
    (h : ∀ c ∈ ps, c.name ≠ k ∧ Json.hasKey (convertField c) k = false) :
    ∀ (acc : List (String × Json)) (req : List String),
      hasKeyFields acc k = false →
      hasKeyFields (convertProps ps acc req).1 k = false := by
  induction ps with
  | nil => intro acc req hacc; rw [convertProps]; exact hacc
  | cons c cs ih =>
      intro acc req hacc
      rw [convertProps]
      refine ih (fun c' hc' => h c' (by simp [hc'])) _ _ ?_
      exact hasKeyFields_setKey acc c.name k _ (h c (by simp)).1
        (h c (by simp)).2 hacc

theorem avoidsName_iff (i nm : String) (ty : FieldType) (rq : Bool)
    (ds : Option String) (props : Option (List SchemaField))
    (its : Option SchemaField) (k : String) :
    avoidsName (.mk i nm ty rq ds props its) k = true ↔
      (nm ≠ k ∧ (∀ ps, props = some ps → avoidsNameList ps k = true) ∧
       (∀ it, its = some it → avoidsName it k = true)) := by
  cases props <;> cases its <;> simp_all [avoidsName, and_assoc]

theorem avoidsNameList_iff (ps : List SchemaField) (k : String) :
    avoidsNameList ps k = true ↔ ∀ c ∈ ps, avoidsName c k = true := by
  induction ps with
  | nil => simp [avoidsNameList]
  | cons c cs ih => simp [avoidsNameList, Bool.and_eq_true, ih]

theorem avoidsName_name (c : SchemaField) (k : String)
    (h : avoidsName c k = true) : c.name ≠ k := by
  cases c with
  | mk i nm ty rq ds props its =>
      rw [avoidsName_iff] at h
      simpa [SchemaField.name] using h.1

/-- A compiled field schema contains no key `k` anywhere, provided `k` is
none of the five keys the compiler writes and no node in the tree is named
`k`. -/
theorem hasKey_convertField_of_avoids (k : String) (h1 : k ≠ "type")
    (h2 : k ≠ "description") (h3 : k ≠ "properties") (h4 : k ≠ "required")
    (h5 : k ≠ "items") :
    ∀ f : SchemaField, avoidsName f k = true →
      Json.hasKey (convertField f) k = false := by
  intro f
  induction f using SchemaField.strongInd with
  | h i nm ty rq ds props its ihp ihi =>
      intro ha
      rw [avoidsName_iff] at ha
      obtain ⟨hnm, haps, hait⟩ := ha
      rw [convertField_eq]
      simp only [Json.hasKey, hasKeyFields_append, Bool.or_eq_false_iff]
      refine ⟨⟨⟨?_, ?_⟩, ?_⟩, ?_⟩
      · simp [hasKeyFields, Json.hasKey, Ne.symm h1]
      · cases ds with
        | none => rw [descPart, hasKeyFields]
        | some d =>
            by_cases hd : d = "" <;>
              simp [descPart, hd, hasKeyFields, Json.hasKey, Ne.symm h2]
      · by_cases hty : ty = FieldType.object
        · subst hty
          cases props with
          | none => rfl
          | some ps =>
              have hkids : ∀ c ∈ ps, c.name ≠ k ∧
                  Json.hasKey (convertField c) k = false := by
                intro c hc
                have hac : avoidsName c k = true :=
                  (avoidsNameList_iff ps k).mp (haps ps rfl) c hc
                exact ⟨avoidsName_name c k hac, ihp ps rfl c hc hac⟩
              have hfold : hasKeyFields (convertProps ps [] []).1 k = false :=
                hasKeyFields_convertProps ps k hkids [] [] rfl
              by_cases hreq : (convertProps ps [] []).2 = []
              · simp [objPart, Json.hasKey, hasKeyFields, hreq, hfold,
                  Ne.symm h3]
              · simp [objPart, Json.hasKey, hasKeyFields, hreq, hfold,
                  Ne.symm h3, Ne.symm h4, hasKeyArr_map_str]
        · rw [objPart_not_object _ _ hty]; rfl
      · by_cases hty : ty = FieldType.array
        · subst hty
          cases its with
          | none => rfl
          | some it =>
              simp [itemsPart, hasKeyFields, Json.hasKey, Ne.symm h5,
                ihi it rfl (hait it rfl)]
        · rw [itemsPart_not_array _ _ hty]; rfl

/-- The generated top-level schema contains no key `k` anywhere, under the
same conditions. -/
theorem hasKey_generateJsonSchema_of_avoids (k : String) (h1 : k ≠ "type")
    (h2 : k ≠ "description") (h3 : k ≠ "properties") (h4 : k ≠ "required")
    (h5 : k ≠ "items") (s : List SchemaField)
    (ha : avoidsNameList s k = true) :
    Json.hasKey (generateJsonSchema s) k = false := by
  have hkids : ∀ c ∈ s, c.name ≠ k ∧
      Json.hasKey (convertField c) k = false := by
    intro c hc
    have hac : avoidsName c k = true := (avoidsNameList_iff s k).mp ha c hc
    exact ⟨avoidsName_name c k hac,
      hasKey_convertField_of_avoids k h1 h2 h3 h4 h5 c hac⟩
  have hfold : hasKeyFields (convertProps s [] []).1 k = false :=
    hasKeyFields_convertProps s k hkids [] [] rfl
  rw [generateJsonSchema]
  by_cases hreq : (convertProps s [] []).2 = []
  · simp [Json.hasKey, hasKeyFields, hreq, hfold, Ne.symm h1, Ne.symm h3]
  · simp [Json.hasKey, hasKeyFields, hreq, hfold, Ne.symm h1, Ne.symm h3,
      Ne.symm h4, hasKeyArr_map_str]

/-- A counterexample to claim C10 as stated: naming a root field `"id"`
makes a key named `id` appear in the compiled schema (as a properties key
and inside the required list), so "no key named id appears anywhere" fails
even though node ids themselves are never emitted. -/
theorem C10_id_key_counterexample :
    Json.hasKey (generateJsonSchema
      [SchemaField.mk "field_1" "id" .string true none none none]) "id" =
      true := rfl

/-- Claim C10, amended: the compiled output never depends on node ids — any
two trees identical except for ids compile to structurally identical
outputs — and a key named `id` can appear in the output only as a
user-chosen field name: whenever no node is named `"id"`, no `id` key
appears anywhere in the compiled schema. -/
theorem C10_amended_id_independent (s t : List SchemaField) :
    (eraseIdsList s = eraseIdsList t →
      generateJsonSchema s = generateJsonSchema t)
    ∧ (avoidsNameList s "id" = true →
      Json.hasKey (generateJsonSchema s) "id" = false) := by
  constructor
  · intro h
    rw [← generateJsonSchema_eraseIdsList s, ← generateJsonSchema_eraseIdsList t, h]
  · intro ha
    exact hasKey_generateJsonSchema_of_avoids "id" (by decide) (by decide)
      (by decide) (by decide) (by decide) s ha

/-- Closed instance of the amended claim C10 theorem: two one-field trees
differing only in ids compile identically, and the initial state (whose
field names are `name` and `age`) compiles to a schema without any `id`
key. -/
theorem C10_amended_id_independent_witness :
    generateJsonSchema [SchemaField.mk "aaa" "name" .string true none none none] =
      generateJsonSchema [SchemaField.mk "bbb" "name" .string true none none none]
    ∧ Json.hasKey (generateJsonSchema initialSchema) "id" = false :=
  ⟨(C10_amended_id_independent
      [SchemaField.mk "aaa" "name" .string true none none none]
      [SchemaField.mk "bbb" "name" .string true none none none]).1 rfl,
   (C10_amended_id_independent initialSchema initialSchema).2 rfl⟩
